import Mathlib

/-!
Verification of the merge and environment-resolution engine of the
`@jclem/config` configuration loader.

The development shallowly embeds the TypeScript source:

* `JValue` / `JObject` model the JSON-like values moved between sources.
  A JavaScript object is modelled as an insertion-ordered list of
  key/value entries (`JObject`); JavaScript objects cannot contain a key
  twice, property assignment (`setKey`) updates an existing key in place
  and appends a fresh key, `for (const key in object)` iterates entries in
  that stored order.  (For integer-like keys JavaScript reorders the
  iteration; configuration keys are identifiers, and none of the
  statements below depend on integer-like keys.)
* `deepMerge` / `deepMergeInto` embed `deepMerge` of `src/lib/config.ts`
  lines 218-232 (textually identical in the second revision of the file).
* `readEnv` / `readEnvShape` / `readInEnv` embed `Config.readInEnv` of
  `src/lib/config.ts` lines 176-211.
* File reading and JSON decoding are external collaborators; a decoded
  file is modelled by a function from file path to decoded record.
* The Zod validator is an external collaborator; it is modelled per its
  interface as a function producing a discriminated success/failure value.
-/

set_option autoImplicit false

namespace Spec2Proof

/-- The JSON-like values a configuration source can contain: scalars
(string / number / boolean / null), arrays, and nested string-keyed
objects modelled as insertion-ordered entry lists. -/
inductive JValue where
  | str (s : String)
  | num (n : Int)
  | boolean (b : Bool)
  | null
  | arr (elems : List JValue)
  | obj (entries : List (String × JValue))

/-- A JavaScript object: an insertion-ordered list of key/value entries. -/
abbrev JObject := List (String × JValue)

/-- JavaScript property lookup `o[k]`: the value at the first entry whose
key is `k`, or `undefined` (`none`). -/
def getKey : JObject → String → Option JValue
  | [], _ => none
  | (k', v) :: rest, k => if k' = k then some v else getKey rest k

/-- `undefined`-aware presence test for a key. -/
def hasKey (o : JObject) (k : String) : Bool :=
  (getKey o k).isSome

/-- JavaScript property assignment `o[k] = v`: updates the first entry
whose key is `k` in place, appends a fresh entry otherwise. -/
def setKey : JObject → String → JValue → JObject
  | [], k, v => [(k, v)]
  | (k', v') :: rest, k, v =>
    if k' = k then (k', v) :: rest else (k', v') :: setKey rest k v

/-- A `JObject` whose top-level keys are pairwise distinct.  Every object
representable in JavaScript satisfies this. -/
def nodupKeys : JObject → Bool
  | [] => true
  | (k, _) :: rest => !hasKey rest k && nodupKeys rest

/-- `isRecord` of `src/lib/config.ts` lines 234-236: a value of type
`object` that is neither `null` nor an array — exactly the `obj`
constructor of `JValue`. -/
def isRecord : JValue → Bool
  | .obj _ => true
  | _ => false

/-- The body of `deepMerge`'s reduce step (`src/lib/config.ts` lines
219-231): fold every entry of `object` into the accumulated `output`; when
both sides hold a record at a key, the two records are merged recursively,
otherwise the entry's value replaces whatever was accumulated.

The source's recursive call is `deepMerge(outputValue, objectValue)`,
which folds the pair `[outputValue, objectValue]` into a fresh empty
record; for key-duplicate-free records — the only records JavaScript can
represent — this equals the direct `deepMergeInto outputValue objectValue`
used here (`deepMergeInto_nil` below proves the fold through the empty
record is the identity on such records). -/
def deepMergeInto : JObject → JObject → JObject
  | out, [] => out
  | out, (k, JValue.obj o2) :: rest =>
    (match getKey out k with
      | some (JValue.obj o1) =>
        deepMergeInto (setKey out k (JValue.obj (deepMergeInto o1 o2))) rest
      | _ => deepMergeInto (setKey out k (JValue.obj o2)) rest)
  | out, (k, v) :: rest => deepMergeInto (setKey out k v) rest
termination_by _ o => sizeOf o

/-- `deepMerge` of `src/lib/config.ts` lines 218-232: reduce the variadic
argument list left to right into a fresh empty record. -/
def deepMerge (objects : List JObject) : JObject :=
  objects.foldl deepMergeInto []

theorem getKey_setKey (o : JObject) (k k2 : String) (v : JValue) :
    getKey (setKey o k v) k2 = if k2 = k then some v else getKey o k2 := by
  by_cases h : k2 = k
  · subst h
    induction o with
    | nil => simp [setKey, getKey]
    | cons e rest ih =>
      obtain ⟨k', v'⟩ := e
      by_cases h1 : k' = k2
      · subst h1; simp [setKey, getKey]
      · simpa [setKey, getKey, h1] using ih
  · induction o with
    | nil => simp [setKey, getKey, h, Ne.symm h]
    | cons e rest ih =>
      obtain ⟨k', v'⟩ := e
      by_cases h1 : k' = k
      · subst h1; simp [setKey, getKey, h, Ne.symm h]
      · by_cases h2 : k' = k2
        · subst h2; simp [setKey, getKey, h1, h]
        · simp only [setKey, if_neg h1, getKey, if_neg h2]
          simpa [h] using ih

theorem hasKey_setKey (o : JObject) (k k2 : String) (v : JValue) :
    hasKey (setKey o k v) k2 = (decide (k2 = k) || hasKey o k2) := by
  simp only [hasKey, getKey_setKey]
  by_cases h : k2 = k <;> simp [h]

theorem nodupKeys_setKey (o : JObject) (k : String) (v : JValue)
    (h : nodupKeys o = true) : nodupKeys (setKey o k v) = true := by
  induction o with
  | nil => simp [setKey, nodupKeys, hasKey, getKey]
  | cons e rest ih =>
    obtain ⟨k', v'⟩ := e
    simp only [nodupKeys, Bool.and_eq_true, Bool.not_eq_true'] at h
    simp only [setKey]
    by_cases hk : k' = k
    · subst hk
      simp [nodupKeys, h.1, h.2]
    · simp only [if_neg hk, nodupKeys, hasKey_setKey, Bool.and_eq_true,
        Bool.not_eq_true', Bool.or_eq_false_iff, decide_eq_false_iff_not]
      exact ⟨⟨hk, h.1⟩, ih h.2⟩

theorem getKey_of_hasKey_false {o : JObject} {k : String}
    (h : hasKey o k = false) : getKey o k = none := by
  cases hg : getKey o k with
  | none => rfl
  | some v => simp [hasKey, hg] at h

/-- The value `deepMergeInto` stores at a key whose entry is being folded
in: the recursive merge when both sides are records, the entry's value
otherwise. -/
def mergeVal : Option JValue → JValue → JValue
  | some (JValue.obj o1), JValue.obj o2 => JValue.obj (deepMergeInto o1 o2)
  | _, v => v

theorem mergeVal_none (v : JValue) : mergeVal none v = v := by
  cases v <;> rfl

theorem mergeVal_not_record (x : Option JValue) (v : JValue)
    (h : isRecord v = false) : mergeVal x v = v := by
  cases x with
  | none => exact mergeVal_none v
  | some w => cases w <;> cases v <;> first | rfl | simp [isRecord] at h

/-- One step of `deepMerge`'s reduce, expressed through `mergeVal`. -/
theorem deepMergeInto_cons (out : JObject) (k : String) (v : JValue)
    (rest : JObject) :
    deepMergeInto out ((k, v) :: rest)
      = deepMergeInto (setKey out k (mergeVal (getKey out k) v)) rest := by
  cases v with
  | obj o2 =>
    simp only [deepMergeInto]
    cases hg : getKey out k with
    | none => simp [mergeVal]
    | some w => cases w <;> simp [hg, mergeVal]
  | str s =>
    rw [mergeVal_not_record (getKey out k) (JValue.str s) rfl]
    simp [deepMergeInto]
  | num n =>
    rw [mergeVal_not_record (getKey out k) (JValue.num n) rfl]
    simp [deepMergeInto]
  | boolean b =>
    rw [mergeVal_not_record (getKey out k) (JValue.boolean b) rfl]
    simp [deepMergeInto]
  | null =>
    rw [mergeVal_not_record (getKey out k) JValue.null rfl]
    simp [deepMergeInto]
  | arr elems =>
    rw [mergeVal_not_record (getKey out k) (JValue.arr elems) rfl]
    simp [deepMergeInto]

/-- Master lookup lemma for the reduce step: for a key-duplicate-free
input record, a key absent from the input keeps its accumulated value and
a key present in the input gets `mergeVal` of the two sides. -/
theorem getKey_deepMergeInto (out obj : JObject) (k : String)
    (h : nodupKeys obj = true) :
    getKey (deepMergeInto out obj) k =
      match getKey obj k with
      | none => getKey out k
      | some v => some (mergeVal (getKey out k) v) := by
  induction obj generalizing out with
  | nil => simp [deepMergeInto, getKey]
  | cons e rest ih =>
    obtain ⟨k1, v1⟩ := e
    have hnd : hasKey rest k1 = false ∧ nodupKeys rest = true := by
      simpa [nodupKeys, Bool.and_eq_true, Bool.not_eq_true'] using h
    rw [deepMergeInto_cons, ih _ hnd.2]
    by_cases hk : k = k1
    · subst hk
      rw [getKey_of_hasKey_false hnd.1]
      simp [getKey, getKey_setKey]
    · have hk' : ¬ k1 = k := fun h' => hk h'.symm
      rw [getKey_setKey]
      simp only [getKey, if_neg hk, if_neg hk']

theorem getKey_deepMergeInto_absent {obj : JObject} {k : String}
    (out : JObject) (h : nodupKeys obj = true) (hk : getKey obj k = none) :
    getKey (deepMergeInto out obj) k = getKey out k := by
  rw [getKey_deepMergeInto _ _ _ h, hk]

theorem getKey_deepMergeInto_present {obj : JObject} {k : String}
    {v : JValue} (out : JObject) (h : nodupKeys obj = true)
    (hk : getKey obj k = some v) :
    getKey (deepMergeInto out obj) k = some (mergeVal (getKey out k) v) := by
  rw [getKey_deepMergeInto _ _ _ h, hk]

theorem nodupKeys_deepMergeInto (out obj : JObject)
    (h : nodupKeys out = true) : nodupKeys (deepMergeInto out obj) = true := by
  induction obj generalizing out with
  | nil => simpa [deepMergeInto] using h
  | cons e rest ih =>
    obtain ⟨k1, v1⟩ := e
    rw [deepMergeInto_cons]
    exact ih _ (nodupKeys_setKey _ _ _ h)

theorem nodupKeys_deepMerge (objects : List JObject) :
    nodupKeys (deepMerge objects) = true := by
  have h : ∀ acc : JObject, nodupKeys acc = true →
      nodupKeys (objects.foldl deepMergeInto acc) = true := by
    induction objects with
    | nil => intro acc hacc; simpa using hacc
    | cons o rest ih =>
      intro acc hacc
      exact ih _ (nodupKeys_deepMergeInto _ _ hacc)
  exact h [] rfl

theorem getKey_append (a b : JObject) (k : String) :
    getKey (a ++ b) k =
      match getKey a k with
      | some v => some v
      | none => getKey b k := by
  induction a with
  | nil => simp [getKey]
  | cons e rest ih =>
    obtain ⟨k', v'⟩ := e
    by_cases h : k' = k
    · subst h; simp [getKey]
    · simpa [getKey, h] using ih

theorem setKey_fresh (o : JObject) (k : String) (v : JValue)
    (h : getKey o k = none) : setKey o k v = o ++ [(k, v)] := by
  induction o with
  | nil => rfl
  | cons e rest ih =>
    obtain ⟨k', v'⟩ := e
    by_cases hk : k' = k
    · subst hk; simp [getKey] at h
    · simp only [getKey, if_neg hk] at h
      simp [setKey, hk, ih h]

/-- Folding a record with fresh, pairwise-distinct keys into an
accumulator appends its entries verbatim. -/
theorem deepMergeInto_append_fresh (out obj : JObject)
    (hobj : nodupKeys obj = true)
    (hdisj : ∀ k, hasKey obj k = true → getKey out k = none) :
    deepMergeInto out obj = out ++ obj := by
  induction obj generalizing out with
  | nil => simp [deepMergeInto]
  | cons e rest ih =>
    obtain ⟨k1, v1⟩ := e
    have hnd : hasKey rest k1 = false ∧ nodupKeys rest = true := by
      simpa [nodupKeys, Bool.and_eq_true, Bool.not_eq_true'] using hobj
    have hout : getKey out k1 = none := by
      refine hdisj k1 ?_
      simp [hasKey, getKey]
    rw [deepMergeInto_cons, hout, mergeVal_none, setKey_fresh _ _ _ hout]
    rw [ih _ hnd.2]
    · simp
    · intro k hkrest
      have hne : ¬ k1 = k := by
        intro h'
        subst h'
        simp [hkrest] at hnd
      have : getKey out k = none := by
        refine hdisj k ?_
        simp [hasKey, getKey, if_neg hne]
        simpa [hasKey] using hkrest
      rw [getKey_append, this]
      simp [getKey, if_neg hne]

/-- Folding a key-duplicate-free record into the fresh empty accumulator
reproduces it: `deepMerge([X]) = X` up to the copy the spec allows. -/
theorem deepMergeInto_nil (obj : JObject) (h : nodupKeys obj = true) :
    deepMergeInto [] obj = obj := by
  simpa using deepMergeInto_append_fresh [] obj h (fun k _ => rfl)

/-- C2: merging the list `[A, B, C]` yields the same record as merging
`[deepMerge [A, B], C]` — `deepMerge` is associative in application
order. -/
theorem claimC2_deepMerge_assoc (A B C : JObject) :
    deepMerge [A, B, C] = deepMerge [deepMerge [A, B], C] := by
  have hM : nodupKeys (deepMergeInto (deepMergeInto ([] : JObject) A) B)
      = true :=
    nodupKeys_deepMergeInto _ _ (nodupKeys_deepMergeInto _ _ rfl)
  simp only [deepMerge, List.foldl]
  rw [deepMergeInto_nil _ hM]

/-! ## The environment resolver -/

/-- Schema node model: Zod schema values as `Config.readInEnv` observes
them through duck typing (`src/lib/config.ts` lines 214-216).  A node
either exposes a `shape` mapping of named children (`z.object`), or it
does not — because it is a primitive schema (`z.string()`, `z.number()`,
...) or because it is a wrapper (`z.preprocess`, `.optional()`, other
effects) hiding an inner schema behind an interface without a `shape`
property. -/
inductive ZodType where
  | primitive
  | wrapped (inner : ZodType)
  | object (shape : List (String × ZodType))

/-- `isZodObject` of `src/lib/config.ts` lines 214-216:
`Reflect.has(value, 'shape')`, i.e. whether the node exposes a `shape`
mapping — true exactly for the `object` constructor. -/
def isZodObject : ZodType → Bool
  | .object _ => true
  | _ => false

/-- JavaScript `toUpperCase` on the ASCII identifiers used as
configuration keys: upper-case every character (the same mapping as
`String.toUpper`, stated over the character list so that concrete
instances evaluate). -/
def toUpperAscii (s : String) : String :=
  String.mk (s.data.map Char.toUpper)

/-- The variable-name computation of `readEnvValue` (`src/lib/config.ts`
lines 181-184): upper-case every path segment and join with a single
underscore. -/
def envVarName (path : List String) : String :=
  String.intercalate ("_") (path.map toUpperAscii)

/-- `readEnvValue` of `src/lib/config.ts` lines 181-184; `env` models the
read-only `process.env` mapping. -/
def readEnvValue (env : String → Option String) (path : List String) :
    Option String :=
  env (envVarName path)

/-- The `path.reduce` writer of `readEnv` (`src/lib/config.ts` lines
195-203): walk `input` along `path`, replacing an absent or `null` step
with a fresh record (the `input[key] = input[key] ?? {}` step), and store
the resolved string at the last step.  On a scalar met before the last
step the `??` keeps the scalar and the next step's property assignment
throws in strict mode (on an array it would attach a property invisible
to the merge); both are modelled as `none` and are unreachable from
`readEnv`, whose accumulator only ever holds records and leaf strings
along schema-tree paths.  An empty path performs no write (`reduce` over
an empty array returns its initial value, which `readEnv` discards). -/
def writePath (value : String) : JObject → List String → Option JObject
  | o, [] => some o
  | o, [k] => some (setKey o k (JValue.str value))
  | o, k :: k2 :: rest =>
    match getKey o k with
    | some (JValue.obj c) =>
      (writePath value c (k2 :: rest)).map
        (fun c2 => setKey o k (JValue.obj c2))
    | none =>
      (writePath value [] (k2 :: rest)).map
        (fun c2 => setKey o k (JValue.obj c2))
    | some JValue.null =>
      (writePath value [] (k2 :: rest)).map
        (fun c2 => setKey o k (JValue.obj c2))
    | some _ => none

mutual

/-- The recursive `readEnv` closure of `Config.readInEnv`
(`src/lib/config.ts` lines 186-206), with the mutated `input` record made
an explicit accumulator: recurse through the `shape` of object nodes; at
any other node look up the variable derived from the current path and,
when it is set (`value != null` — any string, empty included), write it at
the path. -/
def readEnv (env : String → Option String) (path : List String) :
    ZodType → JObject → Option JObject
  | .object shape, input => readEnvShape env path shape input
  | _, input =>
    match readEnvValue env path with
    | some value => writePath value input path
    | none => some input

/-- The `for (const key in schema.shape)` loop of `readEnv`, iterating the
shape entries in stored order. -/
def readEnvShape (env : String → Option String) (path : List String) :
    List (String × ZodType) → JObject → Option JObject
  | [], input => some input
  | (key, child) :: rest, input =>
    match readEnv env (path ++ [key]) child input with
    | some input2 => readEnvShape env path rest input2
    | none => none

end

/-- `Config.readInEnv` (`src/lib/config.ts` lines 176-211): the empty
record when environment reading is disabled, otherwise the traversal from
the schema root with the empty path over a fresh record. -/
def readInEnv (readFromEnv : Bool) (schema : ZodType)
    (env : String → Option String) : Option JObject :=
  if readFromEnv then readEnv env [] schema [] else some []

mutual

/-- The paths at which the `readEnv` traversal stops and reads a
variable: one path per leaf, where a leaf is any node without a `shape`
mapping. -/
def leafPaths : ZodType → List (List String)
  | .object shape => shapeLeafPaths shape
  | _ => [[]]

def shapeLeafPaths : List (String × ZodType) → List (List String)
  | [] => []
  | (key, child) :: rest =>
    (leafPaths child).map (fun p => key :: p) ++ shapeLeafPaths rest

end

def shapeHasKey : List (String × ZodType) → String → Bool
  | [], _ => false
  | (k, _) :: rest, key => k = key || shapeHasKey rest key

mutual

/-- Schema well-formedness: every object node's `shape` has pairwise
distinct keys — automatic for real Zod schemas, whose `shape` is a
JavaScript object. -/
def wfZod : ZodType → Bool
  | .object shape => wfShape shape
  | _ => true

def wfShape : List (String × ZodType) → Bool
  | [] => true
  | (key, child) :: rest =>
    !shapeHasKey rest key && wfZod child && wfShape rest

end

/-- Lookup of a (possibly nested) path in a record: follows record
entries along the path segments. -/
def getPath : JObject → List String → Option JValue
  | o, [] => some (JValue.obj o)
  | o, k :: rest =>
    match getKey o k, rest with
    | some v, [] => some v
    | some (JValue.obj c), _ => getPath c rest
    | _, _ => none

/-- Two paths diverge when neither is an initial segment of the other:
they differ at a position both have. -/
def diverges : List String → List String → Bool
  | [], _ => false
  | _, [] => false
  | a :: as, b :: bs => if a = b then diverges as bs else true

theorem diverges_nil (r : List String) : diverges r [] = false := by
  cases r <;> rfl

theorem getPath_singleton (o : JObject) (k : String) :
    getPath o [k] = getKey o k := by
  cases hg : getKey o k <;> simp [getPath, hg]

theorem getPath_cons_obj {o : JObject} {k : String} {c : JObject}
    (h : getKey o k = some (JValue.obj c)) (r1 : String) (rs : List String) :
    getPath o (k :: r1 :: rs) = getPath c (r1 :: rs) := by
  simp [getPath, h]

theorem getPath_cons_none {o : JObject} {k : String} (h : getKey o k = none)
    (rest : List String) : getPath o (k :: rest) = none := by
  cases rest <;> simp [getPath, h]

theorem getPath_cons_null {o : JObject} {k : String}
    (h : getKey o k = some JValue.null) (r1 : String) (rs : List String) :
    getPath o (k :: r1 :: rs) = none := by
  simp [getPath, h]

theorem getPath_nil_cons (r1 : String) (rs : List String) :
    getPath ([] : JObject) (r1 :: rs) = none := by
  have h : getKey ([] : JObject) r1 = none := rfl
  exact getPath_cons_none h rs

/-- Case analysis on a successful `writePath` along a path of length at
least two: the head entry becomes a record that the tail was written
into — the existing record at the head when there is one, a fresh record
when the head was absent or `null`. -/
theorem writePath_cons_elim {value : String} {i o : JObject}
    {k k2 : String} {rest : List String}
    (h : writePath value i (k :: k2 :: rest) = some o) :
    ∃ c c2 : JObject, writePath value c (k2 :: rest) = some c2 ∧
      o = setKey i k (JValue.obj c2) ∧
      (getKey i k = some (JValue.obj c) ∨
        (c = [] ∧ (getKey i k = none ∨ getKey i k = some JValue.null))) := by
  simp only [writePath] at h
  cases hg : getKey i k with
  | none =>
    rw [hg] at h
    obtain ⟨c2, hc2, ho⟩ := Option.map_eq_some'.mp h
    exact ⟨[], c2, hc2, ho.symm, Or.inr ⟨rfl, Or.inl rfl⟩⟩
  | some w =>
    rw [hg] at h
    cases w with
    | obj c =>
      obtain ⟨c2, hc2, ho⟩ := Option.map_eq_some'.mp h
      exact ⟨c, c2, hc2, ho.symm, Or.inl rfl⟩
    | null =>
      obtain ⟨c2, hc2, ho⟩ := Option.map_eq_some'.mp h
      exact ⟨[], c2, hc2, ho.symm, Or.inr ⟨rfl, Or.inr rfl⟩⟩
    | str s => simp at h
    | num n => simp at h
    | boolean b => simp at h
    | arr elems => simp at h

theorem diverges_append (P a b : List String) :
    diverges (P ++ a) (P ++ b) = diverges a b := by
  induction P with
  | nil => rfl
  | cons k P ih => simp [diverges, ih]

theorem diverges_cons_ne {k k' : String} (h : ¬ k = k') (a b : List String) :
    diverges (k :: a) (k' :: b) = true := by
  simp [diverges, h]

/-- A successful `writePath` stores the resolved string at its own
path. -/
theorem getPath_writePath {value : String} :
    ∀ (p : List String) (i o : JObject), p ≠ [] →
      writePath value i p = some o → getPath o p = some (JValue.str value) := by
  intro p
  induction p with
  | nil => intro i o hne; exact absurd rfl hne
  | cons k tail ih =>
    intro i o _ h
    cases tail with
    | nil =>
      simp only [writePath, Option.some.injEq] at h
      subst h
      rw [getPath_singleton, getKey_setKey]
      simp
    | cons k2 rest =>
      obtain ⟨c, c2, hw, ho, _⟩ := writePath_cons_elim h
      subst ho
      have hself : getKey (setKey i k (JValue.obj c2)) k
          = some (JValue.obj c2) := by
        simp [getKey_setKey]
      rw [getPath_cons_obj hself]
      exact ih c c2 (by simp) hw

/-- Frame property: a successful `writePath` leaves every path that
diverges from its own untouched. -/
theorem writePath_frame {value : String} :
    ∀ (q : List String) (i o : JObject), writePath value i q = some o →
      ∀ r, diverges r q = true → getPath o r = getPath i r := by
  intro q
  induction q with
  | nil =>
    intro i o h r hdiv
    rw [diverges_nil] at hdiv
    exact absurd hdiv (by simp)
  | cons k tail ih =>
    intro i o h r hdiv
    cases r with
    | nil => simp [diverges] at hdiv
    | cons r0 rs =>
      by_cases hr0 : r0 = k
      · subst hr0
        simp only [diverges, if_pos rfl, eq_self_iff_true, if_true] at hdiv
        cases tail with
        | nil => rw [diverges_nil] at hdiv; exact absurd hdiv (by simp)
        | cons k2 rest =>
          cases rs with
          | nil => simp [diverges] at hdiv
          | cons r1 rs' =>
            obtain ⟨c, c2, hw, ho, hc⟩ := writePath_cons_elim h
            subst ho
            have hself : getKey (setKey i r0 (JValue.obj c2)) r0
                = some (JValue.obj c2) := by
              simp [getKey_setKey]
            have hrec : getPath c2 (r1 :: rs') = getPath c (r1 :: rs') :=
              ih c c2 hw (r1 :: rs') hdiv
            rw [getPath_cons_obj hself, hrec]
            rcases hc with hg | ⟨hcnil, hg⟩
            · rw [getPath_cons_obj hg]
            · subst hcnil
              rw [getPath_nil_cons]
              rcases hg with hg | hg
              · rw [getPath_cons_none hg]
              · rw [getPath_cons_null hg]
      · -- the write happens under key `k`, the observed path starts at a
        -- different key: `setKey` preserves the entry at `r0`.
        have hpres : getKey o r0 = getKey i r0 := by
          cases tail with
          | nil =>
            simp only [writePath, Option.some.injEq] at h
            subst h
            rw [getKey_setKey]
            simp [hr0]
          | cons k2 rest =>
            obtain ⟨c, c2, _, ho, _⟩ := writePath_cons_elim h
            subst ho
            rw [getKey_setKey]
            simp [hr0]
        cases rs with
        | nil => rw [getPath_singleton, getPath_singleton, hpres]
        | cons r1 rs' =>
          cases hg : getKey i r0 with
          | none => rw [getPath_cons_none hg, getPath_cons_none (hpres.trans hg)]
          | some w =>
            have hg' : getKey o r0 = some w := hpres.trans hg
            cases w with
            | obj c => rw [getPath_cons_obj hg, getPath_cons_obj hg']
            | null => rw [getPath_cons_null hg, getPath_cons_null hg']
            | str s => simp [getPath, hg, hg']
            | num n => simp [getPath, hg, hg']
            | boolean b => simp [getPath, hg, hg']
            | arr elems => simp [getPath, hg, hg']

/-- A successful `writePath` preserves top-level key distinctness. -/
theorem writePath_nodup {value : String} :
    ∀ (p : List String) (i o : JObject), nodupKeys i = true →
      writePath value i p = some o → nodupKeys o = true := by
  intro p
  cases p with
  | nil =>
    intro i o hi h
    simp only [writePath, Option.some.injEq] at h
    subst h; exact hi
  | cons k tail =>
    intro i o hi h
    cases tail with
    | nil =>
      simp only [writePath, Option.some.injEq] at h
      subst h
      exact nodupKeys_setKey _ _ _ hi
    | cons k2 rest =>
      obtain ⟨c, c2, _, ho, _⟩ := writePath_cons_elim h
      subst ho
      exact nodupKeys_setKey _ _ _ hi

/-- On any node without a `shape` mapping — primitive or wrapper alike —
`readEnv` takes the leaf branch: look the current path's variable up and
write it when set. -/
theorem readEnv_not_object (env : String → Option String) (P : List String)
    (s : ZodType) (i : JObject) (h : isZodObject s = false) :
    readEnv env P s i =
      match readEnvValue env P with
      | some value => writePath value i P
      | none => some i := by
  cases s with
  | object shape => simp [isZodObject] at h
  | primitive => rfl
  | wrapped inner => rfl

theorem shapeLeafPaths_head :
    ∀ (sh : List (String × ZodType)) (p : List String),
      p ∈ shapeLeafPaths sh →
      ∃ k p', p = k :: p' ∧ shapeHasKey sh k = true := by
  intro sh
  induction sh with
  | nil => intro p hp; simp [shapeLeafPaths] at hp
  | cons e rest ih =>
    obtain ⟨key, child⟩ := e
    intro p hp
    simp only [shapeLeafPaths, List.mem_append, List.mem_map] at hp
    rcases hp with ⟨q, hq, rfl⟩ | hp
    · exact ⟨key, q, rfl, by simp [shapeHasKey]⟩
    · obtain ⟨k, p', rfl, hk⟩ := ih p hp
      exact ⟨k, p', rfl, by simp [shapeHasKey, hk]⟩

theorem leaf_frame_aux (env : String → Option String) (P : List String)
    (i o : JObject)
    (h : (match readEnvValue env P with
          | some value => writePath value i P
          | none => some i) = some o)
    (r : List String) (hd : diverges r P = true) :
    getPath o r = getPath i r := by
  cases hv : readEnvValue env P with
  | none =>
    rw [hv] at h
    simp only [Option.some.injEq] at h
    rw [h]
  | some value =>
    rw [hv] at h
    exact writePath_frame P i o h r hd

theorem leaf_nodup_aux (env : String → Option String) (P : List String)
    (i o : JObject) (hi : nodupKeys i = true)
    (h : (match readEnvValue env P with
          | some value => writePath value i P
          | none => some i) = some o) :
    nodupKeys o = true := by
  cases hv : readEnvValue env P with
  | none =>
    rw [hv] at h
    simp only [Option.some.injEq] at h
    rw [← h]; exact hi
  | some value =>
    rw [hv] at h
    exact writePath_nodup P i o hi h

theorem leaf_reads_aux (env : String → Option String) (P : List String)
    (i o : JObject) (hP : P ≠ [])
    (h : (match readEnvValue env P with
          | some value => writePath value i P
          | none => some i) = some o) :
    getPath o P =
      match env (envVarName P) with
      | some v => some (JValue.str v)
      | none => getPath i P := by
  cases hv : readEnvValue env P with
  | none =>
    rw [hv] at h
    simp only [Option.some.injEq] at h
    have henv : env (envVarName P) = none := hv
    rw [henv, h]
  | some value =>
    rw [hv] at h
    have henv : env (envVarName P) = some value := hv
    rw [henv]
    exact getPath_writePath P i o hP h

mutual

/-- Frame property of the traversal: a successful `readEnv` pass leaves
every path that diverges from all of the subtree's leaf paths
untouched. -/
theorem readEnv_frame (env : String → Option String) :
    ∀ (P : List String) (s : ZodType) (i o : JObject),
      readEnv env P s i = some o →
      ∀ r : List String,
        (∀ q ∈ leafPaths s, diverges r (P ++ q) = true) →
        getPath o r = getPath i r
  | P, .object shape, i, o, h, r, hdiv => by
    simp only [readEnv] at h
    exact readEnvShape_frame env P shape i o h r
      (by simpa [leafPaths] using hdiv)
  | P, .primitive, i, o, h, r, hdiv => by
    rw [readEnv_not_object env P ZodType.primitive i rfl] at h
    refine leaf_frame_aux env P i o h r ?_
    have hd := hdiv [] (by simp [leafPaths])
    simpa using hd
  | P, .wrapped inner, i, o, h, r, hdiv => by
    rw [readEnv_not_object env P (ZodType.wrapped inner) i rfl] at h
    refine leaf_frame_aux env P i o h r ?_
    have hd := hdiv [] (by simp [leafPaths])
    simpa using hd

theorem readEnvShape_frame (env : String → Option String) :
    ∀ (P : List String) (sh : List (String × ZodType)) (i o : JObject),
      readEnvShape env P sh i = some o →
      ∀ r : List String,
        (∀ q ∈ shapeLeafPaths sh, diverges r (P ++ q) = true) →
        getPath o r = getPath i r
  | P, [], i, o, h, r, _ => by
    simp only [readEnvShape, Option.some.injEq] at h
    rw [h]
  | P, (key, child) :: rest, i, o, h, r, hdiv => by
    simp only [readEnvShape] at h
    cases h1 : readEnv env (P ++ [key]) child i with
    | none => rw [h1] at h; simp at h
    | some i2 =>
      rw [h1] at h
      have step2 : getPath o r = getPath i2 r :=
        readEnvShape_frame env P rest i2 o h r (fun q hq => by
          refine hdiv q ?_
          simp only [shapeLeafPaths, List.mem_append]
          exact Or.inr hq)
      have step1 : getPath i2 r = getPath i r :=
        readEnv_frame env (P ++ [key]) child i i2 h1 r (fun q hq => by
          have hmem : key :: q ∈ shapeLeafPaths ((key, child) :: rest) := by
            simp only [shapeLeafPaths, List.mem_append]
            exact Or.inl (List.mem_map_of_mem _ hq)
          have hd := hdiv (key :: q) hmem
          simpa [List.append_assoc] using hd)
      rw [step2, step1]

end

mutual

/-- The traversal preserves top-level key distinctness of its
accumulator. -/
theorem readEnv_nodup (env : String → Option String) :
    ∀ (P : List String) (s : ZodType) (i o : JObject), nodupKeys i = true →
      readEnv env P s i = some o → nodupKeys o = true
  | P, .object shape, i, o, hi, h => by
    simp only [readEnv] at h
    exact readEnvShape_nodup env P shape i o hi h
  | P, .primitive, i, o, hi, h => by
    rw [readEnv_not_object env P ZodType.primitive i rfl] at h
    exact leaf_nodup_aux env P i o hi h
  | P, .wrapped inner, i, o, hi, h => by
    rw [readEnv_not_object env P (ZodType.wrapped inner) i rfl] at h
    exact leaf_nodup_aux env P i o hi h

theorem readEnvShape_nodup (env : String → Option String) :
    ∀ (P : List String) (sh : List (String × ZodType)) (i o : JObject),
      nodupKeys i = true → readEnvShape env P sh i = some o →
      nodupKeys o = true
  | P, [], i, o, hi, h => by
    simp only [readEnvShape, Option.some.injEq] at h
    rw [← h]; exact hi
  | P, (key, child) :: rest, i, o, hi, h => by
    simp only [readEnvShape] at h
    cases h1 : readEnv env (P ++ [key]) child i with
    | none => rw [h1] at h; simp at h
    | some i2 =>
      rw [h1] at h
      exact readEnvShape_nodup env P rest i2 o
        (readEnv_nodup env (P ++ [key]) child i i2 hi h1) h

end

mutual

/-- Main characterisation of the traversal: at every leaf path of the
subtree, the output holds exactly the environment variable derived for
that full path when it is set, and the accumulator's prior value
otherwise. -/
theorem readEnv_reads (env : String → Option String) :
    ∀ (P : List String) (s : ZodType) (i o : JObject),
      wfZod s = true → P ≠ [] → readEnv env P s i = some o →
      ∀ p ∈ leafPaths s,
        getPath o (P ++ p) =
          match env (envVarName (P ++ p)) with
          | some v => some (JValue.str v)
          | none => getPath i (P ++ p)
  | P, .object shape, i, o, hwf, _, h, p, hp => by
    simp only [readEnv] at h
    exact readEnvShape_reads env P shape i o (by simpa [wfZod] using hwf) h p
      (by simpa [leafPaths] using hp)
  | P, .primitive, i, o, _, hP, h, p, hp => by
    simp only [leafPaths, List.mem_singleton] at hp
    subst hp
    rw [readEnv_not_object env P ZodType.primitive i rfl] at h
    simpa using leaf_reads_aux env P i o hP h
  | P, .wrapped inner, i, o, _, hP, h, p, hp => by
    simp only [leafPaths, List.mem_singleton] at hp
    subst hp
    rw [readEnv_not_object env P (ZodType.wrapped inner) i rfl] at h
    simpa using leaf_reads_aux env P i o hP h

theorem readEnvShape_reads (env : String → Option String) :
    ∀ (P : List String) (sh : List (String × ZodType)) (i o : JObject),
      wfShape sh = true → readEnvShape env P sh i = some o →
      ∀ p ∈ shapeLeafPaths sh,
        getPath o (P ++ p) =
          match env (envVarName (P ++ p)) with
          | some v => some (JValue.str v)
          | none => getPath i (P ++ p)
  | P, [], i, o, _, h, p, hp => by
    simp [shapeLeafPaths] at hp
  | P, (key, child) :: rest, i, o, hwf, h, p, hp => by
    simp only [wfShape, Bool.and_eq_true, Bool.not_eq_true'] at hwf
    obtain ⟨⟨hkey, hchild⟩, hrest⟩ := hwf
    simp only [readEnvShape] at h
    cases h1 : readEnv env (P ++ [key]) child i with
    | none => rw [h1] at h; simp at h
    | some i2 =>
      rw [h1] at h
      simp only [shapeLeafPaths, List.mem_append, List.mem_map] at hp
      rcases hp with ⟨q, hq, rfl⟩ | hp
      · -- the leaf lies under `child`
        have step1 := readEnv_reads env (P ++ [key]) child i i2 hchild
          (by simp) h1 q hq
        have hdiv : ∀ q2 ∈ shapeLeafPaths rest,
            diverges (P ++ key :: q) (P ++ q2) = true := by
          intro q2 hq2
          obtain ⟨k2, q2', rfl, hk2⟩ := shapeLeafPaths_head rest q2 hq2
          have hne : ¬ key = k2 := by
            intro he
            rw [← he] at hk2
            rw [hkey] at hk2
            exact absurd hk2 (by simp)
          rw [diverges_append]
          exact diverges_cons_ne hne q q2'
        have hframe : getPath o (P ++ key :: q) = getPath i2 (P ++ key :: q) :=
          readEnvShape_frame env P rest i2 o h (P ++ key :: q) hdiv
        rw [hframe]
        rw [show P ++ key :: q = (P ++ [key]) ++ q from by simp]
        exact step1
      · -- the leaf lies under a later entry of the shape
        have step1 := readEnvShape_reads env P rest i2 o hrest h p hp
        have hdiv : ∀ q2 ∈ leafPaths child,
            diverges (P ++ p) ((P ++ [key]) ++ q2) = true := by
          intro q2 hq2
          obtain ⟨k2, p', rfl, hk2⟩ := shapeLeafPaths_head rest p hp
          have hne : ¬ k2 = key := by
            intro he
            rw [he] at hk2
            rw [hkey] at hk2
            exact absurd hk2 (by simp)
          rw [List.append_assoc]
          have : ([key] ++ q2 : List String) = key :: q2 := rfl
          rw [this, diverges_append]
          exact diverges_cons_ne hne p' q2
        have hframe : getPath i2 (P ++ p) = getPath i (P ++ p) :=
          readEnv_frame env (P ++ [key]) child i i2 h1 (P ++ p) hdiv
        rw [step1]
        cases henv : env (envVarName (P ++ p)) with
        | none => simp only [henv]; exact hframe
        | some v => simp only [henv]

end

/-- Top-level key distinctness of a successful `readInEnv` result. -/
theorem readInEnv_nodup (b : Bool) (schema : ZodType)
    (env : String → Option String) (E : JObject)
    (h : readInEnv b schema env = some E) : nodupKeys E = true := by
  cases b with
  | false =>
    simp only [readInEnv, Bool.false_eq_true, if_false,
      Option.some.injEq] at h
    rw [← h]; rfl
  | true =>
    simp only [readInEnv, if_true] at h
    exact readEnv_nodup env [] schema [] E rfl h

/-! ## Source collection and finalisation -/

/-- The accumulating state of a `Config` instance (`src/lib/config.ts`
lines 25-33): the raw-value records, the registered file paths, and the
environment flag, each stored independently of the others, so the state
retains no trace of the interleaving of the builder calls. -/
structure ConfigState where
  values : List JObject
  files : List String
  readFromEnv : Bool

/-- A fresh `Config` instance (`newConfig`, lines 21-23). -/
def ConfigState.init : ConfigState :=
  ⟨[], [], false⟩

/-- `Config.readValue` (lines 45-48): append the given records to the
values list. -/
def readValue (s : ConfigState) (vs : List JObject) : ConfigState :=
  ⟨s.values ++ vs, s.files, s.readFromEnv⟩

/-- `Config.readFile` (lines 61-64): append the given paths to the file
list. -/
def readFile (s : ConfigState) (ps : List String) : ConfigState :=
  ⟨s.values, s.files ++ ps, s.readFromEnv⟩

/-- `Config.readEnv` the builder method (lines 69-72): set the
environment flag. -/
def readEnvCall (s : ConfigState) : ConfigState :=
  ⟨s.values, s.files, true⟩

/-- One builder call on a `Config` instance. -/
inductive BuildCall where
  | value (vs : List JObject)
  | file (ps : List String)
  | env

def applyCall (s : ConfigState) : BuildCall → ConfigState
  | .value vs => readValue s vs
  | .file ps => readFile s ps
  | .env => readEnvCall s

def applyCalls (s : ConfigState) (calls : List BuildCall) : ConfigState :=
  calls.foldl applyCall s

/-- All records passed to `readValue` calls, in call order. -/
def valuesOf : List BuildCall → List JObject
  | [] => []
  | .value vs :: rest => vs ++ valuesOf rest
  | _ :: rest => valuesOf rest

/-- All paths passed to `readFile` calls, in call order. -/
def filesOf : List BuildCall → List String
  | [] => []
  | .file ps :: rest => ps ++ filesOf rest
  | _ :: rest => filesOf rest

/-- Whether any `readEnv` call occurred. -/
def envOf : List BuildCall → Bool
  | [] => false
  | .env :: _ => true
  | _ :: rest => envOf rest

theorem applyCalls_eq (calls : List BuildCall) : ∀ s : ConfigState,
    applyCalls s calls =
      ⟨s.values ++ valuesOf calls, s.files ++ filesOf calls,
        s.readFromEnv || envOf calls⟩ := by
  induction calls with
  | nil => intro s; simp [applyCalls, valuesOf, filesOf, envOf]
  | cons c rest ih =>
    intro s
    have hstep : applyCalls s (c :: rest) = applyCalls (applyCall s c) rest :=
      rfl
    rw [hstep, ih]
    cases c with
    | value vs =>
      simp [applyCall, readValue, valuesOf, filesOf, envOf, List.append_assoc]
    | file ps =>
      simp [applyCall, readFile, valuesOf, filesOf, envOf, List.append_assoc]
    | env =>
      simp [applyCall, readEnvCall, valuesOf, filesOf, envOf]

/-- `Config.readInValues` (lines 145-147). -/
def readInValues (s : ConfigState) : JObject :=
  deepMerge s.values

/-- `Config.readInFilesSync` (lines 163-166).  `fileContents` models
`parseFile(readFileSync(path))` — the decoded record of each registered
file; file I/O and JSON decoding are external collaborators, and a read
or decode failure aborts the whole call before any merge, outside this
model. -/
def readInFilesSync (s : ConfigState) (fileContents : String → JObject) :
    JObject :=
  deepMerge (s.files.map fileContents)

/-- `Config.getInput` (lines 137-143): deep-merge the three tiers in the
fixed order values, files, environment. -/
def getInput (s : ConfigState) (fileContents : String → JObject)
    (schema : ZodType) (env : String → Option String) : Option JObject :=
  match readInEnv s.readFromEnv schema env with
  | some e =>
    some (deepMerge [readInValues s, readInFilesSync s fileContents, e])
  | none => none

/-- One result slot per registered file, `none` until that file's read
completes. -/
def setSlot : List (Option JObject) → Nat → JObject → List (Option JObject)
  | [], _, _ => []
  | _ :: rest, 0, v => some v :: rest
  | x :: rest, n + 1, v => x :: setSlot rest n v

/-- The concurrent reads of `Config.readInFiles` completing in an
arbitrary order: each completion event stores the decoded result of file
`i` in slot `i` — the slot is indexed by registration position, as
`Promise.all` indexes its result array, never by completion order. -/
def runReads (files : List String) (fileContents : String → JObject) :
    List Nat → List (Option JObject) → List (Option JObject)
  | [], slots => slots
  | i :: order, slots =>
    match files.get? i with
    | some f => runReads files fileContents order (setSlot slots i (fileContents f))
    | none => runReads files fileContents order slots

/-- The join of `Promise.all`: resolves with the results in registration
order once every slot is filled; with any read still pending it does not
resolve (`none`). -/
def collectSlots : List (Option JObject) → Option (List JObject)
  | [] => some []
  | some x :: rest => (collectSlots rest).map (fun xs => x :: xs)
  | none :: _ => none

/-- `Config.readInFiles` (lines 149-161): fan the reads out, join them
with `Promise.all`, and deep-merge the decoded results in the order of
the joined array. -/
def readInFiles (s : ConfigState) (fileContents : String → JObject)
    (order : List Nat) : Option JObject :=
  (collectSlots (runReads s.files fileContents order
    (s.files.map (fun _ => none)))).map deepMerge

/-- `Config.getInputAsync` (lines 129-135). -/
def getInputAsync (s : ConfigState) (fileContents : String → JObject)
    (schema : ZodType) (env : String → Option String) (order : List Nat) :
    Option JObject :=
  match readInFiles s fileContents order,
      readInEnv s.readFromEnv schema env with
  | some f, some e => some (deepMerge [readInValues s, f, e])
  | _, _ => none

theorem setSlot_get? (slots : List (Option JObject)) :
    ∀ (n i : Nat) (v : JObject),
      (setSlot slots n v).get? i =
        if i = n ∧ n < slots.length then some (some v) else slots.get? i := by
  induction slots with
  | nil => intro n i v; simp [setSlot]
  | cons x rest ih =>
    intro n i v
    cases n with
    | zero =>
      cases i with
      | zero => simp [setSlot]
      | succ j => simp [setSlot]
    | succ m =>
      cases i with
      | zero => simp [setSlot]
      | succ j =>
        simp only [setSlot, List.get?_cons_succ, ih m j v, List.length_cons]
        by_cases hj : j = m ∧ m < rest.length
        · rw [if_pos hj, if_pos (by omega)]
        · rw [if_neg hj, if_neg (by omega)]

theorem setSlot_length (slots : List (Option JObject)) :
    ∀ (n : Nat) (v : JObject), (setSlot slots n v).length = slots.length := by
  induction slots with
  | nil => intro n v; rfl
  | cons x rest ih =>
    intro n v
    cases n with
    | zero => rfl
    | succ m => simp [setSlot, ih]

theorem runReads_get? (files : List String)
    (fileContents : String → JObject) :
    ∀ (order : List Nat) (slots : List (Option JObject)),
      slots.length = files.length → ∀ i : Nat,
      (runReads files fileContents order slots).get? i =
        if i ∈ order ∧ i < files.length then
          (files.get? i).map (fun f => some (fileContents f))
        else slots.get? i := by
  intro order
  induction order with
  | nil =>
    intro slots hlen i
    simp [runReads]
  | cons j order' ih =>
    intro slots hlen i
    cases hj : files.get? j with
    | none =>
      have hjlen : ¬ j < files.length := by
        intro hlt
        rw [List.get?_eq_none] at hj
        omega
      simp only [runReads, hj]
      rw [ih slots hlen i]
      by_cases hi : i ∈ order' ∧ i < files.length
      · rw [if_pos hi, if_pos ⟨List.mem_cons_of_mem _ hi.1, hi.2⟩]
      · rw [if_neg hi, if_neg ?_]
        intro hcon
        rcases hcon with ⟨hmem, hlt⟩
        rcases List.mem_cons.mp hmem with heq | hmem'
        · exact hjlen (heq ▸ hlt)
        · exact hi ⟨hmem', hlt⟩
    | some f =>
      simp only [runReads, hj]
      rw [ih _ (by rw [setSlot_length]; exact hlen) i]
      by_cases hi : i ∈ order' ∧ i < files.length
      · rw [if_pos hi, if_pos ⟨List.mem_cons_of_mem _ hi.1, hi.2⟩]
      · rw [if_neg hi, setSlot_get?]
        by_cases hij : i = j
        · subst hij
          have hilt : i < files.length := by
            by_contra hcon
            rw [List.get?_eq_none.mpr (by omega)] at hj
            exact absurd hj (by simp)
          rw [if_pos ⟨rfl, by omega⟩, if_pos ⟨List.mem_cons_self _ _, hilt⟩, hj]
          rfl
        · rw [if_neg (by omega), if_neg ?_]
          intro hcon
          rcases hcon with ⟨hmem, hlt⟩
          rcases List.mem_cons.mp hmem with heq | hmem'
          · exact hij heq
          · exact hi ⟨hmem', hlt⟩

theorem collectSlots_map (g : String → JObject) (l : List String) :
    collectSlots (l.map (fun f => some (g f))) = some (l.map g) := by
  induction l with
  | nil => rfl
  | cons x rest ih => simp [collectSlots, ih]

/-- With every registered read completed, `runReads` has filled slot `i`
with the decoded result of file `i`, for every `i`. -/
theorem runReads_complete (files : List String)
    (fileContents : String → JObject) (order : List Nat)
    (hcover : ∀ i, i < files.length → i ∈ order) :
    runReads files fileContents order (files.map (fun _ => none))
      = files.map (fun f => some (fileContents f)) := by
  apply List.ext_get?
  intro i
  rw [runReads_get? files fileContents order _ (by simp) i]
  by_cases hi : i < files.length
  · rw [if_pos ⟨hcover i hi, hi⟩, List.get?_map]
  · have hnone : files.get? i = none := List.get?_eq_none.mpr (by omega)
    rw [if_neg (by omega), List.get?_map, List.get?_map, hnone]
    rfl

/-- The asynchronous file phase resolves to exactly the synchronous
result once every read has completed, whatever the completion order. -/
theorem readInFiles_eq (s : ConfigState) (fileContents : String → JObject)
    (order : List Nat)
    (hcover : ∀ i, i < s.files.length → i ∈ order) :
    readInFiles s fileContents order
      = some (readInFilesSync s fileContents) := by
  rw [readInFiles, runReads_complete s.files fileContents order hcover,
    collectSlots_map]
  rfl

theorem getInputAsync_eq (s : ConfigState) (fileContents : String → JObject)
    (schema : ZodType) (env : String → Option String) (order : List Nat)
    (hcover : ∀ i, i < s.files.length → i ∈ order) :
    getInputAsync s fileContents schema env order
      = getInput s fileContents schema env := by
  rw [getInputAsync, readInFiles_eq s fileContents order hcover]
  cases he : readInEnv s.readFromEnv schema env <;> rw [getInput, he]

/-! ## The validator interface -/

/-- One violation in the external validator's structured error: an error
classification code, the offending field path, and a human-readable
message. -/
structure ZodIssue where
  code : String
  path : List String
  message : String

/-- The discriminated outcome of the validator's non-throwing form: a
success flag with either the typed data or the structured error. -/
inductive SafeParseResult where
  | success (data : JObject)
  | failure (error : List ZodIssue)

/-- `Config.safeParse` (`src/lib/config.ts` lines 123-127): compute the
merged input and validate it with the validator's non-throwing form.
The validator is an external collaborator: `validate` models its
non-throwing form — a total function to a discriminated outcome — and its
throwing form raises exactly on the inputs `validate` rejects, with the
same structured error. -/
def safeParse (validate : JObject → SafeParseResult) (s : ConfigState)
    (fileContents : String → JObject) (schema : ZodType)
    (env : String → Option String) : Option SafeParseResult :=
  (getInput s fileContents schema env).map validate

/-- `Config.parse` (`src/lib/config.ts` lines 108-112): the throwing
form; `Except.error` models the `ZodError` the validator throws. -/
def parse (validate : JObject → SafeParseResult) (s : ConfigState)
    (fileContents : String → JObject) (schema : ZodType)
    (env : String → Option String) :
    Option (Except (List ZodIssue) JObject) :=
  (getInput s fileContents schema env).map (fun input =>
    match validate input with
    | .success d => Except.ok d
    | .failure e => Except.error e)

/-- `Config.safeParseAsync` (`src/lib/config.ts` lines 96-100). -/
def safeParseAsync (validate : JObject → SafeParseResult) (s : ConfigState)
    (fileContents : String → JObject) (schema : ZodType)
    (env : String → Option String) (order : List Nat) :
    Option SafeParseResult :=
  (getInputAsync s fileContents schema env order).map validate

/-! ## The second revision's resolver -/

/-- `readEnvValue` of the second revision of the library
(`src/unnamed/part_000` lines 208-211): textually identical to the first
revision's — the path segments upper-cased and joined with a single
underscore. -/
def readEnvValueV2 (env : String → Option String) (path : List String) :
    Option String :=
  env (String.intercalate ("_") (path.map toUpperAscii))

/-! ## The claims -/

/-- C1: the merged input fed to the validator applies the fixed
kind-level precedence Values < Files < Env, regardless of the order of
the builder calls: two call sequences with the same per-tier contents
produce the same merged input; a key held (as a non-record leaf) by the
files tier and not resolved by the environment keeps the file value over
any value-tier entry; and a key resolved (as a non-record leaf) by the
environment keeps the environment value over both lower tiers. -/
theorem claimC1_precedence (calls calls' : List BuildCall)
    (fileContents : String → JObject) (schema : ZodType)
    (env : String → Option String)
    (hv : valuesOf calls = valuesOf calls')
    (hf : filesOf calls = filesOf calls')
    (he : envOf calls = envOf calls')
    (E input : JObject) (k : String) (v : JValue)
    (hE : readInEnv (applyCalls ConfigState.init calls).readFromEnv schema
        env = some E)
    (hI : getInput (applyCalls ConfigState.init calls) fileContents schema
        env = some input) :
    getInput (applyCalls ConfigState.init calls') fileContents schema env
        = some input
    ∧ (getKey (readInFilesSync (applyCalls ConfigState.init calls)
          fileContents) k = some v → isRecord v = false →
        getKey E k = none → getKey input k = some v)
    ∧ (getKey E k = some v → isRecord v = false →
        getKey input k = some v) := by
  have hstate : applyCalls ConfigState.init calls
      = applyCalls ConfigState.init calls' := by
    rw [applyCalls_eq, applyCalls_eq, hv, hf, he]
  have hinput : input
      = deepMergeInto (deepMergeInto (deepMergeInto []
          (readInValues (applyCalls ConfigState.init calls)))
          (readInFilesSync (applyCalls ConfigState.init calls)
            fileContents)) E := by
    simp only [getInput, hE, Option.some.injEq] at hI
    rw [← hI]
    simp [deepMerge]
  have hndE : nodupKeys E = true := readInEnv_nodup _ _ _ _ hE
  refine ⟨?_, ?_, ?_⟩
  · rw [← hstate]; exact hI
  · intro hF hrec hEno
    have hndF : nodupKeys (readInFilesSync
        (applyCalls ConfigState.init calls) fileContents) = true :=
      nodupKeys_deepMerge _
    rw [hinput, getKey_deepMergeInto_absent _ hndE hEno,
      getKey_deepMergeInto_present _ hndF hF, mergeVal_not_record _ _ hrec]
  · intro hEk hrec
    rw [hinput, getKey_deepMergeInto_present _ hndE hEk,
      mergeVal_not_record _ _ hrec]

/-- Witness for C1 at the spec's precedence example: value `n:0, m:0`,
file `n:1, m:1`, environment `N=2`, with the builder calls issued in the
order file, env, value on one side and value, file, env on the other. -/
theorem claimC1_precedence_witness :
    getInput (applyCalls ConfigState.init
        [BuildCall.value [[(("n"), JValue.num 0), (("m"), JValue.num 0)]],
          BuildCall.file [("f")], BuildCall.env])
      (fun _ => [(("n"), JValue.num 1), (("m"), JValue.num 1)])
      (ZodType.object [(("n"), ZodType.primitive),
        (("m"), ZodType.primitive)])
      (fun nm => if nm = ("N") then some ("2") else none)
      = some [(("n"), JValue.str ("2")), (("m"), JValue.num 1)]
    ∧ getKey [(("n"), JValue.str ("2")), (("m"), JValue.num 1)] ("n")
        = some (JValue.str ("2"))
    ∧ getKey [(("n"), JValue.str ("2")), (("m"), JValue.num 1)] ("m")
        = some (JValue.num 1) := by
  have hE : readInEnv
      (applyCalls ConfigState.init
        [BuildCall.file [("f")], BuildCall.env,
          BuildCall.value [[(("n"), JValue.num 0),
            (("m"), JValue.num 0)]]]).readFromEnv
      (ZodType.object [(("n"), ZodType.primitive),
        (("m"), ZodType.primitive)])
      (fun nm => if nm = ("N") then some ("2") else none)
      = some [(("n"), JValue.str ("2"))] := by
    simp +decide [applyCalls, applyCall, readFile, readEnvCall, readValue,
      ConfigState.init, readInEnv, readEnv, readEnvShape, readEnvValue,
      envVarName, toUpperAscii, writePath, setKey, getKey]
  have hI : getInput
      (applyCalls ConfigState.init
        [BuildCall.file [("f")], BuildCall.env,
          BuildCall.value [[(("n"), JValue.num 0),
            (("m"), JValue.num 0)]]])
      (fun _ => [(("n"), JValue.num 1), (("m"), JValue.num 1)])
      (ZodType.object [(("n"), ZodType.primitive),
        (("m"), ZodType.primitive)])
      (fun nm => if nm = ("N") then some ("2") else none)
      = some [(("n"), JValue.str ("2")), (("m"), JValue.num 1)] := by
    simp +decide [applyCalls, applyCall, readFile, readEnvCall, readValue,
      ConfigState.init, getInput, readInEnv, readEnv, readEnvShape,
      readEnvValue, envVarName, toUpperAscii, writePath, setKey, getKey,
      deepMerge, deepMergeInto, readInValues, readInFilesSync]
  have h1 := claimC1_precedence
    [BuildCall.file [("f")], BuildCall.env,
      BuildCall.value [[(("n"), JValue.num 0), (("m"), JValue.num 0)]]]
    [BuildCall.value [[(("n"), JValue.num 0), (("m"), JValue.num 0)]],
      BuildCall.file [("f")], BuildCall.env]
    (fun _ => [(("n"), JValue.num 1), (("m"), JValue.num 1)])
    (ZodType.object [(("n"), ZodType.primitive),
      (("m"), ZodType.primitive)])
    (fun nm => if nm = ("N") then some ("2") else none)
    rfl rfl rfl
    [(("n"), JValue.str ("2"))]
    [(("n"), JValue.str ("2")), (("m"), JValue.num 1)]
    ("n") (JValue.str ("2")) hE hI
  have h2 := claimC1_precedence
    [BuildCall.file [("f")], BuildCall.env,
      BuildCall.value [[(("n"), JValue.num 0), (("m"), JValue.num 0)]]]
    [BuildCall.value [[(("n"), JValue.num 0), (("m"), JValue.num 0)]],
      BuildCall.file [("f")], BuildCall.env]
    (fun _ => [(("n"), JValue.num 1), (("m"), JValue.num 1)])
    (ZodType.object [(("n"), ZodType.primitive),
      (("m"), ZodType.primitive)])
    (fun nm => if nm = ("N") then some ("2") else none)
    rfl rfl rfl
    [(("n"), JValue.str ("2"))]
    [(("n"), JValue.str ("2")), (("m"), JValue.num 1)]
    ("m") (JValue.num 1) hE hI
  refine ⟨h1.1, h1.2.2 rfl rfl, ?_⟩
  refine h2.2.1 ?_ rfl rfl
  simp +decide [applyCalls, applyCall, readFile, readEnvCall, readValue,
    ConfigState.init, readInFilesSync, deepMerge, deepMergeInto, setKey,
    getKey]

/-- C3: in the merge step, recursive merging happens at a key only when
both the accumulated value and the current input's value there are
records; in every other case the later value fully replaces the earlier
one — in particular two arrays are never merged element-wise:
deep-merging the records a maps-to the array 1,2 and a maps-to the array
3 yields the second record whole. -/
theorem claimC3_merge_rule (out obj : JObject) (k : String)
    (hnd : nodupKeys obj = true) :
    (∀ o1 o2 : JObject, getKey out k = some (JValue.obj o1) →
      getKey obj k = some (JValue.obj o2) →
      getKey (deepMergeInto out obj) k
        = some (JValue.obj (deepMergeInto o1 o2)))
    ∧ (∀ v : JValue, getKey obj k = some v →
        (isRecord v = false ∨
          ∀ u : JObject, getKey out k ≠ some (JValue.obj u)) →
        getKey (deepMergeInto out obj) k = some v)
    ∧ deepMerge [[(("a"), JValue.arr [JValue.num 1, JValue.num 2])],
        [(("a"), JValue.arr [JValue.num 3])]]
      = [(("a"), JValue.arr [JValue.num 3])] := by
  refine ⟨?_, ?_, ?_⟩
  · intro o1 o2 hout hobj
    rw [getKey_deepMergeInto_present _ hnd hobj, hout]
    simp [mergeVal]
  · intro v hobj hcase
    rw [getKey_deepMergeInto_present _ hnd hobj]
    rcases hcase with hrec | hne
    · rw [mergeVal_not_record _ _ hrec]
    · have hmv : mergeVal (getKey out k) v = v := by
        cases hg : getKey out k with
        | none => exact mergeVal_none v
        | some w =>
          cases w with
          | obj u => exact absurd hg (hne u)
          | str s => cases v <;> rfl
          | num n => cases v <;> rfl
          | boolean b => cases v <;> rfl
          | null => cases v <;> rfl
          | arr elems => cases v <;> rfl
      rw [hmv]
  · simp +decide [deepMerge, deepMergeInto, setKey, getKey]

/-- Witness for C3 at a concrete input: merging the records a maps-to a
record x:1 and a maps-to a record y:2 recurses into the two nested
records. -/
theorem claimC3_merge_rule_witness :
    getKey (deepMergeInto [(("a"), JValue.obj [(("x"), JValue.num 1)])]
        [(("a"), JValue.obj [(("y"), JValue.num 2)])]) ("a")
      = some (JValue.obj (deepMergeInto [(("x"), JValue.num 1)]
          [(("y"), JValue.num 2)])) :=
  (claimC3_merge_rule [(("a"), JValue.obj [(("x"), JValue.num 1)])]
      [(("a"), JValue.obj [(("y"), JValue.num 2)])] ("a") rfl).1
    [(("x"), JValue.num 1)] [(("y"), JValue.num 2)] rfl rfl

/-- C4: under the legacy convention, the environment-variable name for a
schema leaf path upper-cases each path segment and joins with a single
underscore, without splitting camel-case boundaries: database.poolSize
derives DATABASE_POOLSIZE, the flat leaves fooBar and foobar both derive
the identical name FOOBAR, and setting only FOOBAR populates both fields
with its value. -/
theorem claimC4_legacy_names :
    envVarName [("database"), ("poolSize")] = ("DATABASE_POOLSIZE")
    ∧ envVarName [("fooBar")] = ("FOOBAR")
    ∧ envVarName [("foobar")] = ("FOOBAR")
    ∧ ∀ value : String,
        readInEnv true (ZodType.object [(("fooBar"), ZodType.primitive),
          (("foobar"), ZodType.primitive)])
          (fun nm => if nm = ("FOOBAR") then some value else none)
        = some [(("fooBar"), JValue.str value),
            (("foobar"), JValue.str value)] := by
  refine ⟨rfl, rfl, rfl, ?_⟩
  intro value
  simp +decide [readInEnv, readEnv, readEnvShape, readEnvValue, envVarName,
    toUpperAscii, writePath, setKey, getKey]

/-- C5 counterexample: the second revision's `readEnvValue` joins path
segments with a single underscore, so it does not read the
double-underscore names the claim asserts — with only DATABASE__POOLSIZE
and FOO__BAR set, the second revision resolves nothing for the paths
database.poolSize and foo.bar, because the names it derives are
DATABASE_POOLSIZE and FOO_BAR. -/
theorem claimC5_counterexample :
    readEnvValueV2
      (fun nm => if nm = ("DATABASE__POOLSIZE") then some ("10")
        else if nm = ("FOO__BAR") then some ("baz") else none)
      [("database"), ("poolSize")] = none
    ∧ readEnvValueV2
      (fun nm => if nm = ("DATABASE__POOLSIZE") then some ("10")
        else if nm = ("FOO__BAR") then some ("baz") else none)
      [("foo"), ("bar")] = none
    ∧ String.intercalate ("_") ([("database"), ("poolSize")].map
        toUpperAscii) = ("DATABASE_POOLSIZE")
    ∧ ¬ String.intercalate ("_") ([("database"), ("poolSize")].map
        toUpperAscii) = ("DATABASE__POOLSIZE") := by
  refine ⟨rfl, rfl, rfl, by decide⟩

/-- C5 amended: the second revision's code derives environment-variable
names exactly as the legacy convention does — each segment upper-cased,
joined with a single underscore, camel-case boundaries untouched — so its
resolver reads DATABASE_POOLSIZE for database.poolSize and FOO_BAR for
foo.bar. -/
theorem claimC5_v2_names :
    (∀ (env : String → Option String) (path : List String),
      readEnvValueV2 env path = readEnvValue env path)
    ∧ (∀ env : String → Option String,
        readEnvValueV2 env [("database"), ("poolSize")]
          = env ("DATABASE_POOLSIZE"))
    ∧ (∀ env : String → Option String,
        readEnvValueV2 env [("foo"), ("bar")] = env ("FOO_BAR")) :=
  ⟨fun _ _ => rfl, fun _ => rfl, fun _ => rfl⟩

/-- C6: for every well-formed object schema, at every schema leaf path
the resolver's output holds the environment variable's value verbatim as
a string exactly when the variable is present — an empty string counts as
present — and holds nothing at that path when the variable is absent. -/
theorem claimC6_env_resolution (shape : List (String × ZodType))
    (hwf : wfZod (ZodType.object shape) = true)
    (env : String → Option String) (o : JObject)
    (h : readInEnv true (ZodType.object shape) env = some o)
    (p : List String) (hp : p ∈ leafPaths (ZodType.object shape)) :
    getPath o p = (env (envVarName p)).map JValue.str := by
  simp only [readInEnv, if_true] at h
  simp only [readEnv] at h
  have hmain := readEnvShape_reads env [] shape [] o
    (by simpa [wfZod] using hwf) h p (by simpa [leafPaths] using hp)
  simp only [List.nil_append] at hmain
  rw [hmain]
  cases henv : env (envVarName p) with
  | some v => simp
  | none =>
    simp only [Option.map_none']
    obtain ⟨k, p', rfl, _⟩ :=
      shapeLeafPaths_head shape p (by simpa [leafPaths] using hp)
    exact getPath_nil_cons k p'

/-- Witness for C6 at the schema with nested leaf path object.a and the
environment variable OBJECT_A set to the empty string: the empty string
is written at the path. -/
theorem claimC6_env_resolution_witness :
    getPath [(("object"), JValue.obj [(("a"), JValue.str (""))])]
      [("object"), ("a")]
      = ((fun nm => if nm = ("OBJECT_A") then some ("") else none)
          (envVarName [("object"), ("a")])).map JValue.str :=
  claimC6_env_resolution
    [(("object"), ZodType.object [(("a"), ZodType.primitive)])]
    (by simp +decide [wfZod, wfShape, shapeHasKey])
    (fun nm => if nm = ("OBJECT_A") then some ("") else none)
    [(("object"), JValue.obj [(("a"), JValue.str (""))])]
    (by simp +decide [readInEnv, readEnv, readEnvShape, readEnvValue,
      envVarName, toUpperAscii, writePath, setKey, getKey])
    [("object"), ("a")]
    (by simp [leafPaths, shapeLeafPaths])

/-- C7: a schema declaring both a flat leaf foo_bar and a nested object
foo with leaf bar derives the same environment-variable name FOO_BAR for
both leaf paths, and when that single variable is set the resolver
populates both paths with its value — the collision is neither detected
nor rejected. -/
theorem claimC7_collision :
    envVarName [("foo_bar")] = ("FOO_BAR")
    ∧ envVarName [("foo"), ("bar")] = ("FOO_BAR")
    ∧ ∀ value : String,
        readInEnv true (ZodType.object [(("foo_bar"), ZodType.primitive),
          (("foo"), ZodType.object [(("bar"), ZodType.primitive)])])
          (fun nm => if nm = ("FOO_BAR") then some value else none)
        = some [(("foo_bar"), JValue.str value),
            (("foo"), JValue.obj [(("bar"), JValue.str value)])] := by
  refine ⟨rfl, rfl, ?_⟩
  intro value
  simp +decide [readInEnv, readEnv, readEnvShape, readEnvValue, envVarName,
    toUpperAscii, writePath, setKey, getKey]

/-- C8: once every registered file's read has completed — in any
completion order — the asynchronous file phase resolves to the decoded
results deep-merged in registration order, and the asynchronous finalize
produces the same merged input as the synchronous finalize. -/
theorem claimC8_async_equals_sync (s : ConfigState)
    (fileContents : String → JObject) (schema : ZodType)
    (env : String → Option String) (order : List Nat)
    (hcover : ∀ i, i < s.files.length → i ∈ order) :
    readInFiles s fileContents order
        = some (readInFilesSync s fileContents)
    ∧ getInputAsync s fileContents schema env order
        = getInput s fileContents schema env :=
  ⟨readInFiles_eq s fileContents order hcover,
    getInputAsync_eq s fileContents schema env order hcover⟩

/-- Witness for C8 with two files whose reads complete in reverse
registration order: the merge still happens in registration order and
matches the synchronous result. -/
theorem claimC8_async_equals_sync_witness :
    readInFiles (ConfigState.mk [] [("f1"), ("f2")] false)
      (fun p => if p = ("f1") then [(("k"), JValue.num 1)]
        else [(("k"), JValue.num 2)]) [1, 0]
      = some (readInFilesSync (ConfigState.mk [] [("f1"), ("f2")] false)
          (fun p => if p = ("f1") then [(("k"), JValue.num 1)]
            else [(("k"), JValue.num 2)]))
    ∧ getInputAsync (ConfigState.mk [] [("f1"), ("f2")] false)
      (fun p => if p = ("f1") then [(("k"), JValue.num 1)]
        else [(("k"), JValue.num 2)])
      (ZodType.object []) (fun _ => none) [1, 0]
      = getInput (ConfigState.mk [] [("f1"), ("f2")] false)
        (fun p => if p = ("f1") then [(("k"), JValue.num 1)]
          else [(("k"), JValue.num 2)])
        (ZodType.object []) (fun _ => none) :=
  claimC8_async_equals_sync (ConfigState.mk [] [("f1"), ("f2")] false)
    (fun p => if p = ("f1") then [(("k"), JValue.num 1)]
      else [(("k"), JValue.num 2)])
    (ZodType.object []) (fun _ => none) [1, 0] (by decide)

/-- C9: the non-throwing finalize forms return the validator's
discriminated outcome on the merged input — a failure value rather than a
raised error on invalid input, the typed data on success — the throwing
form errs exactly on the inputs the non-throwing form rejects, and the
asynchronous non-throwing form agrees with the synchronous one once all
file reads complete. -/
theorem claimC9_safe_parse (validate : JObject → SafeParseResult)
    (s : ConfigState) (fileContents : String → JObject) (schema : ZodType)
    (env : String → Option String) :
    (∀ (input : JObject) (e : List ZodIssue),
      getInput s fileContents schema env = some input →
      validate input = SafeParseResult.failure e →
      safeParse validate s fileContents schema env
          = some (SafeParseResult.failure e)
      ∧ parse validate s fileContents schema env = some (Except.error e))
    ∧ (∀ (input d : JObject),
      getInput s fileContents schema env = some input →
      validate input = SafeParseResult.success d →
      safeParse validate s fileContents schema env
          = some (SafeParseResult.success d)
      ∧ parse validate s fileContents schema env = some (Except.ok d))
    ∧ (∀ order : List Nat, (∀ i, i < s.files.length → i ∈ order) →
      safeParseAsync validate s fileContents schema env order
        = safeParse validate s fileContents schema env) := by
  refine ⟨?_, ?_, ?_⟩
  · intro input e hin hv
    constructor
    · rw [safeParse, hin, Option.map_some', hv]
    · rw [parse, hin, Option.map_some', hv]
  · intro input d hin hv
    constructor
    · rw [safeParse, hin, Option.map_some', hv]
    · rw [parse, hin, Option.map_some', hv]
  · intro order hc
    rw [safeParseAsync, safeParse,
      getInputAsync_eq s fileContents schema env order hc]

/-- Witness for C9 with a validator requiring a string at foo and a
value record holding a number there: the non-throwing form returns the
failure outcome and the throwing form errs with the same structured
error. -/
theorem claimC9_safe_parse_witness :
    safeParse (fun input => match getKey input ("foo") with
      | some (JValue.str _) => SafeParseResult.success input
      | _ => SafeParseResult.failure [ZodIssue.mk ("invalid_type")
          [("foo")] ("Expected string, received number")])
      (ConfigState.mk [[(("foo"), JValue.num 1)]] [] false)
      (fun _ => []) (ZodType.object []) (fun _ => none)
      = some (SafeParseResult.failure [ZodIssue.mk ("invalid_type")
          [("foo")] ("Expected string, received number")])
    ∧ parse (fun input => match getKey input ("foo") with
      | some (JValue.str _) => SafeParseResult.success input
      | _ => SafeParseResult.failure [ZodIssue.mk ("invalid_type")
          [("foo")] ("Expected string, received number")])
      (ConfigState.mk [[(("foo"), JValue.num 1)]] [] false)
      (fun _ => []) (ZodType.object []) (fun _ => none)
      = some (Except.error [ZodIssue.mk ("invalid_type")
          [("foo")] ("Expected string, received number")]) :=
  (claimC9_safe_parse (fun input => match getKey input ("foo") with
      | some (JValue.str _) => SafeParseResult.success input
      | _ => SafeParseResult.failure [ZodIssue.mk ("invalid_type")
          [("foo")] ("Expected string, received number")])
      (ConfigState.mk [[(("foo"), JValue.num 1)]] [] false)
      (fun _ => []) (ZodType.object []) (fun _ => none)).1
    [(("foo"), JValue.num 1)]
    [ZodIssue.mk ("invalid_type") [("foo")]
      ("Expected string, received number")]
    (by simp +decide [getInput, readInEnv, readInValues, readInFilesSync,
      deepMerge, deepMergeInto, setKey, getKey])
    rfl

/-- C10: the resolver decides whether a node is an object purely by
whether it exposes a shape mapping; it recurses exactly into shape-bearing
nodes, and a node whose children are hidden behind a wrapper is treated
as a single leaf resolved from the one variable derived from its path,
with none of its nested child paths resolved individually. -/
theorem claimC10_duck_typing :
    (∀ shape, isZodObject (ZodType.object shape) = true)
    ∧ (∀ inner, isZodObject (ZodType.wrapped inner) = false)
    ∧ isZodObject ZodType.primitive = false
    ∧ (∀ (env : String → Option String) (path : List String) shape input,
        readEnv env path (ZodType.object shape) input
          = readEnvShape env path shape input)
    ∧ (∀ (env : String → Option String) (path : List String) inner input,
        readEnv env path (ZodType.wrapped inner) input
          = readEnv env path ZodType.primitive input)
    ∧ (∀ vFoo vBar : String,
        readInEnv true (ZodType.object [(("foo"), ZodType.wrapped
          (ZodType.object [(("bar"), ZodType.primitive)]))])
          (fun nm => if nm = ("FOO") then some vFoo
            else if nm = ("FOO_BAR") then some vBar else none)
        = some [(("foo"), JValue.str vFoo)]) := by
  refine ⟨fun shape => rfl, fun inner => rfl, rfl, ?_, ?_, ?_⟩
  · intro env path shape input
    simp [readEnv]
  · intro env path inner input
    rw [readEnv_not_object env path (ZodType.wrapped inner) input rfl,
      readEnv_not_object env path ZodType.primitive input rfl]
  · intro vFoo vBar
    simp +decide [readInEnv, readEnv, readEnvShape, readEnvValue,
      envVarName, toUpperAscii, writePath, setKey, getKey]

end Spec2Proof
